import Mathlib

/-!
Verification of the array-rotation utility (rotate-array.ts).

The source program consists of two functions over a mutable number array:

  function rotate(nums, k) {
    const normalized_k = k % nums.length;
    if (normalized_k === 0 || nums.length <= 1) { return; }
    const n = nums.length - 1;
    reverse(nums, 0, n);
    reverse(nums, 0, normalized_k - 1);
    reverse(nums, normalized_k, n);
  }

  function reverse(nums, start, end) {
    while (start < end) {
      const temp = nums[start];
      nums[start] = nums[end];
      nums[end] = temp;
      start++;
      end--;
    }
  }

The embedding models the mutable array as a `List Int` threaded through the
computation, and the JavaScript `%` operator (truncated remainder) as
`Int.tmod`.  JavaScript peculiarities that are reachable only outside the
specified domain (non-negative `k`) are modelled as follows: a read at a
negative index yields `undefined` in JavaScript, modelled here by the
placeholder value 0; a write at a negative index creates a non-element
property on the JS array object and leaves the array elements untouched,
modelled as the identity.  For `nums.length = 0`, JavaScript computes
`k % 0 = NaN`, which fails the `=== 0` test, while `Int.tmod k 0 = k`; the
observable behaviour of `rotate` coincides in both models because the
`nums.length <= 1` disjunct forces the early return regardless.
-/

namespace RotateArray

/-- Reading nums[i] on a JS array: the element when the index is in bounds,
the placeholder 0 (for JS undefined) otherwise. -/
def jsRead (nums : List Int) (i : Int) : Int :=
  if 0 ≤ i then nums.getD i.toNat 0 else 0

/-- Writing nums[i] = v on a JS array: updates the element when the index is a
valid element index, otherwise leaves the array elements unchanged. -/
def jsWrite (nums : List Int) (i : Int) (v : Int) : List Int :=
  if 0 ≤ i then nums.set i.toNat v else nums

/-- One iteration of the while-loop body of reverse: temp = nums[start];
nums[start] = nums[end]; nums[end] = temp. -/
def swapStep (nums : List Int) (s e : Int) : List Int :=
  jsWrite (jsWrite nums s (jsRead nums e)) e (jsRead nums s)

/-- The reverse helper of rotate-array.ts: while (start < end) swap
nums[start] and nums[end], moving both pointers inward. -/
def reverse (nums : List Int) (s e : Int) : List Int :=
  if s < e then
    reverse (swapStep nums s e) (s + 1) (e - 1)
  else
    nums
termination_by (e - s).toNat
decreasing_by omega

/-- The rotate function of rotate-array.ts: normalize k by the JS remainder,
early-return on zero normalized offset or length at most 1, otherwise apply
the triple reversal. -/
def rotate (nums : List Int) (k : Int) : List Int :=
  let normalized_k := Int.tmod k (nums.length : Int)
  if normalized_k = 0 ∨ nums.length ≤ 1 then
    nums
  else
    let n : Int := (nums.length : Int) - 1
    let a1 := reverse nums 0 n
    let a2 := reverse a1 0 (normalized_k - 1)
    reverse a2 normalized_k n

theorem length_jsWrite (nums : List Int) (i v : Int) :
    (jsWrite nums i v).length = nums.length := by
  unfold jsWrite
  split <;> simp

theorem length_swapStep (nums : List Int) (s e : Int) :
    (swapStep nums s e).length = nums.length := by
  unfold swapStep
  simp [length_jsWrite]

theorem length_reverse (nums : List Int) (s e : Int) :
    (reverse nums s e).length = nums.length := by
  induction nums, s, e using reverse.induct with
  | case1 nums s e h ih =>
      rw [reverse, if_pos h]
      rw [ih, length_swapStep]
  | case2 nums s e h =>
      rw [reverse, if_neg h]

theorem jsRead_eq (nums : List Int) (i : Int) (h0 : 0 ≤ i) :
    jsRead nums i = (nums[i.toNat]?).getD 0 := by
  simp [jsRead, h0]

theorem jsWrite_eq (nums : List Int) (i : Int) (v : Int) (h0 : 0 ≤ i) :
    jsWrite nums i v = nums.set i.toNat v := by
  simp [jsWrite, h0]

theorem swapStep_eq (nums : List Int) (s e : Int) (hs : 0 ≤ s) (he0 : 0 ≤ e) :
    swapStep nums s e =
      (nums.set s.toNat ((nums[e.toNat]?).getD 0)).set e.toNat ((nums[s.toNat]?).getD 0) := by
  rw [swapStep, jsRead_eq nums e he0, jsRead_eq nums s hs,
    jsWrite_eq nums s _ hs, jsWrite_eq _ e _ he0]

theorem getElem?_swapStep (nums : List Int) (s e : Int) (hs : 0 ≤ s) (hse : s < e)
    (he : e < (nums.length : Int)) (i : Nat) :
    (swapStep nums s e)[i]? =
      if (i : Int) = s then nums[e.toNat]?
      else if (i : Int) = e then nums[s.toNat]?
      else nums[i]? := by
  have he0 : 0 ≤ e := by omega
  have hsl : s.toNat < nums.length := by omega
  have hel : e.toNat < nums.length := by omega
  rw [swapStep_eq nums s e hs he0]
  rcases Decidable.em (i = e.toNat) with hie | hie
  · subst hie
    have h1 : ¬((e.toNat : Int) = s) := by omega
    have h2 : ((e.toNat : Int)) = e := by omega
    rw [if_neg h1, if_pos h2]
    rw [List.getElem?_set_self (by simpa using hel)]
    rw [List.getElem?_eq_getElem hsl, Option.getD_some]
  · rcases Decidable.em (i = s.toNat) with his | his
    · subst his
      have h1 : ((s.toNat : Int)) = s := by omega
      rw [if_pos h1]
      rw [List.getElem?_set_ne (by omega), List.getElem?_set_self hsl]
      rw [List.getElem?_eq_getElem hel, Option.getD_some]
    · have h1 : ¬((i : Int) = s) := by omega
      have h2 : ¬((i : Int) = e) := by omega
      rw [if_neg h1, if_neg h2]
      rw [List.getElem?_set_ne (by omega), List.getElem?_set_ne (by omega)]

theorem reverse_getElem? (nums : List Int) (s e : Int) :
    0 ≤ s → e < (nums.length : Int) → ∀ i : Nat,
    (reverse nums s e)[i]? =
      if s ≤ (i : Int) ∧ (i : Int) ≤ e then nums[(s + e - i).toNat]? else nums[i]? := by
  induction nums, s, e using reverse.induct with
  | case1 nums s e h ih =>
      intro hs he i
      have hlen : ((swapStep nums s e).length : Int) = (nums.length : Int) := by
        rw [length_swapStep]
      rw [reverse, if_pos h]
      rw [ih (by omega) (by rw [hlen]; omega) i]
      rcases Decidable.em (s + 1 ≤ (i : Int) ∧ (i : Int) ≤ e - 1) with hin | hin
      · rw [if_pos hin, if_pos (by omega)]
        rw [getElem?_swapStep nums s e hs h he]
        have hj : (((s + 1 + (e - 1) - i).toNat : Nat) : Int) = s + e - i := by omega
        rw [if_neg (by omega), if_neg (by omega)]
        congr 1
        omega
      · rw [if_neg hin]
        rw [getElem?_swapStep nums s e hs h he]
        rcases Decidable.em ((i : Int) = s) with his | his
        · rw [if_pos his, if_pos (by omega)]
          congr 1
          omega
        · rw [if_neg his]
          rcases Decidable.em ((i : Int) = e) with hie | hie
          · rw [if_pos hie, if_pos (by omega)]
            congr 1
            omega
          · rw [if_neg hie, if_neg (by omega)]
  | case2 nums s e h =>
      intro hs he i
      rw [reverse, if_neg h]
      rcases Decidable.em (s ≤ (i : Int) ∧ (i : Int) ≤ e) with hin | hin
      · rw [if_pos hin]
        congr 1
        omega
      · rw [if_neg hin]

theorem tmod_eq_toNat_mod (k : Int) (n : Nat) (hk : 0 ≤ k) :
    Int.tmod k (n : Int) = ((k.toNat % n : Nat) : Int) := by
  conv_lhs => rw [← Int.toNat_of_nonneg hk]
  exact (Int.ofNat_tmod _ _).symm

theorem length_rotate (nums : List Int) (k : Int) :
    (rotate nums k).length = nums.length := by
  simp only [rotate]
  split
  · rfl
  · simp only [length_reverse]

theorem triple_reverse_getElem? (l : List Int) (kk : Nat) (hN : 2 ≤ l.length)
    (hk1 : 1 ≤ kk) (hkN : kk < l.length) (i : Nat) (hi : i < l.length) :
    (reverse (reverse (reverse l 0 ((l.length : Int) - 1)) 0 ((kk : Int) - 1))
        (kk : Int) ((l.length : Int) - 1))[i]? =
      if i < kk then l[(l.length - kk) + i]? else l[i - kk]? := by
  have la1 : (reverse l 0 ((l.length : Int) - 1)).length = l.length := length_reverse _ _ _
  have la2 : (reverse (reverse l 0 ((l.length : Int) - 1)) 0 ((kk : Int) - 1)).length
      = l.length := by
    rw [length_reverse, la1]
  rw [reverse_getElem? _ (kk : Int) ((l.length : Int) - 1) (by omega) (by rw [la2]; omega) i]
  simp only [reverse_getElem? (reverse l 0 ((l.length : Int) - 1)) 0 ((kk : Int) - 1)
      (le_refl 0) (by rw [la1]; omega),
    reverse_getElem? l 0 ((l.length : Int) - 1) (le_refl 0) (by omega)]
  split_ifs <;> first | rfl | (congr 1; omega)

/-- Characterization of rotate for non-negative k: the result is the final
block of length normalizedK moved to the front, i.e. drop m ++ take m with
m = length - normalizedK. -/
theorem rotate_eq_drop_append_take (nums : List Int) (k : Int) (hk : 0 ≤ k) :
    rotate nums k =
      nums.drop (nums.length - k.toNat % nums.length) ++
      nums.take (nums.length - k.toNat % nums.length) := by
  simp only [rotate]
  rw [tmod_eq_toNat_mod k nums.length hk]
  split
  · rename_i hbr
    rcases hbr with hk0 | hlen
    · have hk0' : k.toNat % nums.length = 0 := by omega
      rw [hk0', Nat.sub_zero, List.drop_length, List.take_length, List.nil_append]
    · rcases Nat.le_one_iff_eq_zero_or_eq_one.mp hlen with h0 | h1
      · rcases List.length_eq_zero.mp h0 with rfl
        simp
      · have hk0' : k.toNat % nums.length = 0 := by rw [h1]; exact Nat.mod_one _
        rw [hk0', Nat.sub_zero, List.drop_length, List.take_length, List.nil_append]
  · rename_i hbr
    push_neg at hbr
    obtain ⟨hk0, hlen⟩ := hbr
    have hN : 2 ≤ nums.length := by omega
    have hkN : k.toNat % nums.length < nums.length := Nat.mod_lt _ (by omega)
    have hk1 : 1 ≤ k.toNat % nums.length := by omega
    apply List.ext_getElem?
    intro i
    rcases Decidable.em (i < nums.length) with hi | hi
    · rw [triple_reverse_getElem? nums (k.toNat % nums.length) hN hk1 hkN i hi]
      rw [List.getElem?_append]
      simp only [List.length_drop]
      rcases Decidable.em (i < k.toNat % nums.length) with hik | hik
      · rw [if_pos hik, if_pos (by omega), List.getElem?_drop]
      · rw [if_neg hik, if_neg (by omega), List.getElem?_take_of_lt (by omega)]
        congr 1
        omega
    · have h1 : (reverse (reverse (reverse nums 0 ((nums.length : Int) - 1)) 0
          (((k.toNat % nums.length : Nat) : Int) - 1)) ((k.toNat % nums.length : Nat) : Int)
          ((nums.length : Int) - 1)).length ≤ i := by
        rw [length_reverse, length_reverse, length_reverse]; omega
      rw [List.getElem?_eq_none h1, List.getElem?_eq_none (by
        rw [List.length_append, List.length_drop, List.length_take]; omega)]

/-- The list of (start, end) argument pairs that rotate passes to reverse:
empty when the early return fires, otherwise the three reversal ranges. -/
def rotateCalls (nums : List Int) (k : Int) : List (Int × Int) :=
  let normalized_k := Int.tmod k (nums.length : Int)
  if normalized_k = 0 ∨ nums.length ≤ 1 then []
  else
    let n : Int := (nums.length : Int) - 1
    [(0, n), (0, normalized_k - 1), (normalized_k, n)]

/-- Access-checked read: signals InvalidArgument instead of yielding a JS
undefined value when the index is outside the array. -/
def readE (nums : List Int) (i : Int) : Except String Int :=
  if 0 ≤ i then
    match nums[i.toNat]? with
    | some v => Except.ok v
    | none => Except.error "InvalidArgument"
  else Except.error "InvalidArgument"

/-- Access-checked write: signals InvalidArgument instead of silently
dropping a write at an index outside the array. -/
def writeE (nums : List Int) (i : Int) (v : Int) : Except String (List Int) :=
  if 0 ≤ i ∧ i.toNat < nums.length then Except.ok (nums.set i.toNat v)
  else Except.error "InvalidArgument"

/-- The reverse helper with every array access checked: the loop body reads
temp = nums[start], reads nums[end], writes nums[start], writes nums[end],
propagating an InvalidArgument error if any access is out of bounds. -/
def reverseE (nums : List Int) (s e : Int) : Except String (List Int) :=
  if s < e then do
    let temp ← readE nums s
    let ve ← readE nums e
    let n1 ← writeE nums s ve
    let n2 ← writeE n1 e temp
    reverseE n2 (s + 1) (e - 1)
  else Except.ok nums
termination_by (e - s).toNat
decreasing_by omega

/-- The rotate function with every array access checked. -/
def rotateE (nums : List Int) (k : Int) : Except String (List Int) :=
  let normalized_k := Int.tmod k (nums.length : Int)
  if normalized_k = 0 ∨ nums.length ≤ 1 then Except.ok nums
  else do
    let a1 ← reverseE nums 0 ((nums.length : Int) - 1)
    let a2 ← reverseE a1 0 (normalized_k - 1)
    reverseE a2 normalized_k ((nums.length : Int) - 1)

/-- The reverse helper run on an explicit iteration budget: none when the
budget is exhausted before the while loop finishes. -/
def reverseFuel (fuel : Nat) (nums : List Int) (s e : Int) : Option (List Int) :=
  match fuel with
  | 0 => if s < e then none else some nums
  | f + 1 => if s < e then reverseFuel f (swapStep nums s e) (s + 1) (e - 1) else some nums

/-- The rotate function where each of the three reversal calls runs on an
iteration budget of nums.length. -/
def rotateFuel (nums : List Int) (k : Int) : Option (List Int) :=
  let normalized_k := Int.tmod k (nums.length : Int)
  if normalized_k = 0 ∨ nums.length ≤ 1 then some nums
  else do
    let a1 ← reverseFuel nums.length nums 0 ((nums.length : Int) - 1)
    let a2 ← reverseFuel nums.length a1 0 (normalized_k - 1)
    reverseFuel nums.length a2 normalized_k ((nums.length : Int) - 1)

theorem ok_bind {α β : Type} (a : α) (f : α → Except String β) :
    (Except.ok a >>= f : Except String β) = f a := rfl

theorem readE_ok (nums : List Int) (i : Int) (h0 : 0 ≤ i) (h : i.toNat < nums.length) :
    readE nums i = Except.ok ((nums[i.toNat]?).getD 0) := by
  simp [readE, h0, List.getElem?_eq_getElem h]

theorem writeE_ok (nums : List Int) (i : Int) (v : Int) (h0 : 0 ≤ i)
    (h : i.toNat < nums.length) :
    writeE nums i v = Except.ok (nums.set i.toNat v) := by
  simp [writeE, h0, h]

theorem reverseE_eq_ok : ∀ (d : Nat) (nums : List Int) (s e : Int), (e - s).toNat ≤ d →
    0 ≤ s → e < (nums.length : Int) → reverseE nums s e = Except.ok (reverse nums s e) := by
  intro d
  induction d with
  | zero =>
      intro nums s e hd hs he
      rw [reverseE, if_neg (by omega), reverse, if_neg (by omega)]
  | succ f ih =>
      intro nums s e hd hs he
      rcases Decidable.em (s < e) with h | h
      · have he0 : (0 : Int) ≤ e := by omega
        have hsl : s.toNat < nums.length := by omega
        have hel : e.toNat < nums.length := by omega
        rw [reverseE, if_pos h]
        rw [readE_ok nums s hs hsl, ok_bind, readE_ok nums e he0 hel, ok_bind,
          writeE_ok nums s _ hs hsl, ok_bind,
          writeE_ok _ e _ he0 (by simpa using hel), ok_bind]
        rw [reverse, if_pos h, ← swapStep_eq nums s e hs he0]
        exact ih (swapStep nums s e) (s + 1) (e - 1) (by omega) (by omega)
          (by rw [length_swapStep]; omega)
      · rw [reverseE, if_neg h, reverse, if_neg h]

theorem reverseFuel_eq_some (fuel : Nat) (nums : List Int) (s e : Int)
    (h : (e - s).toNat ≤ fuel) :
    reverseFuel fuel nums s e = some (reverse nums s e) := by
  induction fuel generalizing nums s e with
  | zero =>
      simp only [reverseFuel]
      rw [if_neg (by omega), reverse, if_neg (by omega)]
  | succ f ih =>
      rcases Decidable.em (s < e) with h' | h'
      · simp only [reverseFuel]
        rw [if_pos h', reverse, if_pos h']
        exact ih _ _ _ (by omega)
      · simp only [reverseFuel]
        rw [if_neg h', reverse, if_neg h']

theorem someBind {α β : Type} (a : α) (f : α → Option β) :
    (some a >>= f : Option β) = f a := rfl

theorem rotateE_eq_ok (nums : List Int) (k : Int) (hk : 0 ≤ k) :
    rotateE nums k = Except.ok (rotate nums k) := by
  simp only [rotateE, rotate]
  rw [tmod_eq_toNat_mod k nums.length hk]
  by_cases hbr : ((k.toNat % nums.length : Nat) : Int) = 0 ∨ nums.length ≤ 1
  · rw [if_pos hbr, if_pos hbr]
  · rw [if_neg hbr, if_neg hbr]
    push_neg at hbr
    obtain ⟨hk0, hlen2⟩ := hbr
    have hkN : k.toNat % nums.length < nums.length := Nat.mod_lt _ (by omega)
    have hk1 : 1 ≤ k.toNat % nums.length := by omega
    have l1 : (reverse nums 0 ((nums.length : Int) - 1)).length = nums.length :=
      length_reverse _ _ _
    have l2 : (reverse (reverse nums 0 ((nums.length : Int) - 1)) 0
        (((k.toNat % nums.length : Nat) : Int) - 1)).length = nums.length := by
      rw [length_reverse, l1]
    rw [reverseE_eq_ok nums.length nums 0 ((nums.length : Int) - 1)
      (by omega) (by omega) (by omega), ok_bind]
    rw [reverseE_eq_ok nums.length _ 0 (((k.toNat % nums.length : Nat) : Int) - 1)
      (by omega) (by omega) (by rw [l1]; omega), ok_bind]
    exact reverseE_eq_ok nums.length _ _ _ (by omega) (by omega) (by rw [l2]; omega)

theorem rotateFuel_eq_some (nums : List Int) (k : Int) (hk : 0 ≤ k) :
    rotateFuel nums k = some (rotate nums k) := by
  simp only [rotateFuel, rotate]
  rw [tmod_eq_toNat_mod k nums.length hk]
  by_cases hbr : ((k.toNat % nums.length : Nat) : Int) = 0 ∨ nums.length ≤ 1
  · rw [if_pos hbr, if_pos hbr]
  · rw [if_neg hbr, if_neg hbr]
    push_neg at hbr
    obtain ⟨hk0, hlen2⟩ := hbr
    have hkN : k.toNat % nums.length < nums.length := Nat.mod_lt _ (by omega)
    have hk1 : 1 ≤ k.toNat % nums.length := by omega
    rw [reverseFuel_eq_some nums.length nums 0 ((nums.length : Int) - 1) (by omega), someBind]
    rw [reverseFuel_eq_some nums.length _ 0 (((k.toNat % nums.length : Nat) : Int) - 1)
      (by omega), someBind]
    exact reverseFuel_eq_some nums.length _ _ _ (by omega)

/-- C1: for every sequence nums of length n >= 1 and every non-negative
integer k, after rotate(nums, k) the element at index (i + k) mod n equals
the element that was at index i before the call, for every i in [0, n):
rotate performs a right rotation by k mod n positions. -/
theorem rotate_right_rotation (nums : List Int) (k i : Nat)
    (hlen : 1 ≤ nums.length) (hi : i < nums.length) :
    (rotate nums (k : Int))[(i + k) % nums.length]? = nums[i]? := by
  rw [rotate_eq_drop_append_take nums (k : Int) (by exact_mod_cast Nat.zero_le k)]
  rw [Int.toNat_ofNat]
  have hr : k % nums.length < nums.length := Nat.mod_lt _ (by omega)
  have hmod : (i + k) % nums.length = (i + k % nums.length) % nums.length :=
    (Nat.add_mod_mod i k nums.length).symm
  rw [hmod, List.getElem?_append]
  simp only [List.length_drop]
  rcases Decidable.em (i < nums.length - k % nums.length) with him | him
  · have hj : (i + k % nums.length) % nums.length = i + k % nums.length :=
      Nat.mod_eq_of_lt (by omega)
    rw [hj, if_neg (by omega), List.getElem?_take_of_lt (by omega)]
    congr 1
    omega
  · have hj : (i + k % nums.length) % nums.length = i + k % nums.length - nums.length := by
      rw [Nat.mod_eq_sub_mod (by omega)]
      exact Nat.mod_eq_of_lt (by omega)
    rw [hj, if_pos (by omega), List.getElem?_drop]
    congr 1
    omega

theorem rotate_right_rotation_witness :
    (1 ≤ ([1, 2, 3, 4, 5, 6, 7] : List Int).length
      ∧ 0 < ([1, 2, 3, 4, 5, 6, 7] : List Int).length)
    ∧ (rotate [1, 2, 3, 4, 5, 6, 7] ((3 : Nat) : Int))[(0 + 3) %
        ([1, 2, 3, 4, 5, 6, 7] : List Int).length]? = ([1, 2, 3, 4, 5, 6, 7] : List Int)[0]? :=
  ⟨⟨by decide, by decide⟩, rotate_right_rotation [1, 2, 3, 4, 5, 6, 7] 3 0 (by decide) (by decide)⟩

/-- C2: for 0 <= start <= end < length, reverse(nums, start, end) puts the
element that was at index end - i at index start + i for every
0 <= i <= end - start, leaves every element outside [start, end] unchanged,
and is a no-op (not an error) when start = end. -/
theorem reverse_range_spec (nums : List Int) (s e : Nat) (hse : s ≤ e)
    (he : e < nums.length) :
    (∀ i : Nat, i ≤ e - s → (reverse nums (s : Int) (e : Int))[s + i]? = nums[e - i]?)
    ∧ (∀ j : Nat, j < s ∨ e < j → (reverse nums (s : Int) (e : Int))[j]? = nums[j]?)
    ∧ (s = e → reverse nums (s : Int) (e : Int) = nums) := by
  refine ⟨?_, ?_, ?_⟩
  · intro i hi
    rw [reverse_getElem? nums (s : Int) (e : Int) (by omega) (by omega) (s + i)]
    rw [if_pos (by omega)]
    congr 1
    omega
  · intro j hj
    rw [reverse_getElem? nums (s : Int) (e : Int) (by omega) (by omega) j]
    rw [if_neg (by omega)]
  · intro h
    subst h
    rw [reverse, if_neg (by omega)]

theorem reverse_range_spec_witness :
    ((1 : Nat) ≤ 3 ∧ 3 < ([1, 2, 3, 4, 5] : List Int).length)
    ∧ (reverse [1, 2, 3, 4, 5] ((1 : Nat) : Int) ((3 : Nat) : Int))[1 + 1]?
        = ([1, 2, 3, 4, 5] : List Int)[3 - 1]?
    ∧ (reverse [1, 2, 3, 4, 5] ((1 : Nat) : Int) ((3 : Nat) : Int))[4]?
        = ([1, 2, 3, 4, 5] : List Int)[4]? :=
  ⟨⟨by decide, by decide⟩,
   (reverse_range_spec [1, 2, 3, 4, 5] 1 3 (by decide) (by decide)).1 1 (by decide),
   (reverse_range_spec [1, 2, 3, 4, 5] 1 3 (by decide) (by decide)).2.1 4 (by decide)⟩

/-- C3: for every sequence and every non-negative integer k, the multiset of
elements after rotate(seq, k) is identical to the multiset before the call. -/
theorem rotate_multiset_invariant (nums : List Int) (k : Int) (hk : 0 ≤ k) :
    ((rotate nums k : List Int) : Multiset Int) = (nums : Multiset Int) := by
  rw [rotate_eq_drop_append_take nums k hk, Multiset.coe_eq_coe]
  conv_rhs => rw [← List.take_append_drop (nums.length - k.toNat % nums.length) nums]
  exact List.perm_append_comm

theorem rotate_multiset_invariant_witness :
    (0 : Int) ≤ 2
    ∧ ((rotate [-1, -100, 3, 99] 2 : List Int) : Multiset Int)
        = (([-1, -100, 3, 99] : List Int) : Multiset Int) :=
  ⟨by decide, rotate_multiset_invariant [-1, -100, 3, 99] 2 (by decide)⟩

/-- C4: for length n >= 1 and non-negative k, every (start, end) pair that
rotate passes to reverse satisfies 0 <= start <= end < length, and in the
access-checked embedding the out-of-bounds branch is unreachable: the
checked run returns the unchecked result. -/
theorem rotate_internal_bounds (nums : List Int) (k : Int) (hk : 0 ≤ k)
    (hlen : 1 ≤ nums.length) :
    (∀ s e : Int, (s, e) ∈ rotateCalls nums k →
      0 ≤ s ∧ s ≤ e ∧ e < (nums.length : Int))
    ∧ rotateE nums k = Except.ok (rotate nums k) := by
  refine ⟨?_, rotateE_eq_ok nums k hk⟩
  intro s e hmem
  simp only [rotateCalls] at hmem
  rw [tmod_eq_toNat_mod k nums.length hk] at hmem
  by_cases hbr : ((k.toNat % nums.length : Nat) : Int) = 0 ∨ nums.length ≤ 1
  · rw [if_pos hbr] at hmem
    simp at hmem
  · rw [if_neg hbr] at hmem
    push_neg at hbr
    obtain ⟨hk0, hlen2⟩ := hbr
    have hkN : k.toNat % nums.length < nums.length := Nat.mod_lt _ (by omega)
    have hk1 : 1 ≤ k.toNat % nums.length := by omega
    simp only [List.mem_cons, List.not_mem_nil, or_false, Prod.mk.injEq] at hmem
    rcases hmem with ⟨rfl, rfl⟩ | ⟨rfl, rfl⟩ | ⟨rfl, rfl⟩
    · exact ⟨by omega, by omega, by omega⟩
    · exact ⟨by omega, by omega, by omega⟩
    · exact ⟨by omega, by omega, by omega⟩

theorem rotate_internal_bounds_witness :
    ((0 : Int) ≤ 3 ∧ 1 ≤ ([1, 2, 3, 4, 5, 6, 7] : List Int).length)
    ∧ (0 : Int) ≤ 0 ∧ (0 : Int) ≤ 6
      ∧ (6 : Int) < (([1, 2, 3, 4, 5, 6, 7] : List Int).length : Int) :=
  ⟨⟨by decide, by decide⟩,
   (rotate_internal_bounds [1, 2, 3, 4, 5, 6, 7] 3 (by decide) (by decide)).1 0 6 (by decide)⟩

/-- C5: for every sequence of length n > 0 and every non-negative k,
rotating by k and then by n - (k mod n) restores the original order. -/
theorem rotate_then_inverse_restores (nums : List Int) (k : Nat) (hn : 0 < nums.length) :
    rotate (rotate nums (k : Int)) ((nums.length - k % nums.length : Nat) : Int) = nums := by
  have hr : k % nums.length < nums.length := Nat.mod_lt _ hn
  rw [rotate_eq_drop_append_take nums (k : Int) (by exact_mod_cast Nat.zero_le k)]
  rw [Int.toNat_ofNat]
  have hl' : (nums.drop (nums.length - k % nums.length) ++
      nums.take (nums.length - k % nums.length)).length = nums.length := by
    simp only [List.length_append, List.length_drop, List.length_take]
    omega
  rw [rotate_eq_drop_append_take _ ((nums.length - k % nums.length : Nat) : Int)
    (by exact_mod_cast Nat.zero_le _)]
  rw [Int.toNat_ofNat, hl']
  rcases Nat.eq_zero_or_pos (k % nums.length) with ht0 | ht1
  · rw [ht0]
    simp [List.drop_length, List.take_length, Nat.mod_self]
  · have h1 : (nums.length - k % nums.length) % nums.length
        = nums.length - k % nums.length := Nat.mod_eq_of_lt (by omega)
    rw [h1]
    have h2 : nums.length - (nums.length - k % nums.length) = k % nums.length := by omega
    rw [h2]
    have h3 : (nums.drop (nums.length - k % nums.length)).length = k % nums.length := by
      simp only [List.length_drop]
      omega
    rw [List.drop_left' h3, List.take_left' h3]
    exact List.take_append_drop _ nums

theorem rotate_then_inverse_restores_witness :
    0 < ([1, 2, 3, 4, 5, 6, 7] : List Int).length
    ∧ rotate (rotate [1, 2, 3, 4, 5, 6, 7] ((3 : Nat) : Int))
        ((([1, 2, 3, 4, 5, 6, 7] : List Int).length
          - 3 % ([1, 2, 3, 4, 5, 6, 7] : List Int).length : Nat) : Int)
        = [1, 2, 3, 4, 5, 6, 7] :=
  ⟨by decide, rotate_then_inverse_restores [1, 2, 3, 4, 5, 6, 7] 3 (by decide)⟩

/-- C6: for every sequence of length n > 0 and every non-negative k,
rotate(seq, k) and rotate(seq, k + n) produce identical results. -/
theorem rotate_mod_length_equiv (nums : List Int) (k : Nat) (hn : 0 < nums.length) :
    rotate nums (k : Int) = rotate nums ((k + nums.length : Nat) : Int) := by
  rw [rotate_eq_drop_append_take nums (k : Int) (by exact_mod_cast Nat.zero_le k),
    rotate_eq_drop_append_take nums _ (by exact_mod_cast Nat.zero_le _)]
  rw [Int.toNat_ofNat, Int.toNat_ofNat, Nat.add_mod_right]

theorem rotate_mod_length_equiv_witness :
    0 < ([1, 2] : List Int).length
    ∧ rotate [1, 2] ((3 : Nat) : Int)
        = rotate [1, 2] ((3 + ([1, 2] : List Int).length : Nat) : Int) :=
  ⟨by decide, rotate_mod_length_equiv [1, 2] 3 (by decide)⟩

/-- C7: rotate(seq, 0), rotate([], k) and rotate([x], k) all leave the
sequence unchanged, as a defined no-op, for every k and element x. -/
theorem rotate_noop_boundaries :
    (∀ nums : List Int, rotate nums 0 = nums)
    ∧ (∀ k : Int, rotate ([] : List Int) k = [])
    ∧ (∀ (k : Int) (x : Int), rotate [x] k = [x]) := by
  refine ⟨?_, ?_, ?_⟩
  · intro nums
    simp [rotate]
  · intro k
    simp [rotate]
  · intro k x
    simp [rotate]

/-- C8: within the defined domain (non-negative k) every call to rotate
completes fully: the access-checked run signals no error and returns exactly
the fully rotated sequence, so no state exists in which the sequence is
partly mutated and an error is signalled. -/
theorem rotate_no_partial_failure (nums : List Int) (k : Int) (hk : 0 ≤ k) :
    rotateE nums k = Except.ok (rotate nums k) :=
  rotateE_eq_ok nums k hk

theorem rotate_no_partial_failure_witness :
    (0 : Int) ≤ 2 ∧ rotateE [-1, -100, 3, 99] 2 = Except.ok (rotate [-1, -100, 3, 99] 2) :=
  ⟨by decide, rotate_no_partial_failure [-1, -100, 3, 99] 2 (by decide)⟩

/-- C9: for every sequence and every non-negative k, rotate terminates:
each while-loop iteration strictly shrinks the range, so each reversal
finishes within nums.length iterations, and the budgeted interpreter with
that fuel returns the same result as the unbudgeted one. -/
theorem rotate_terminates_with_linear_fuel (nums : List Int) (k : Int) (hk : 0 ≤ k) :
    rotateFuel nums k = some (rotate nums k) :=
  rotateFuel_eq_some nums k hk

theorem rotate_terminates_with_linear_fuel_witness :
    (0 : Int) ≤ 3 ∧ rotateFuel [1, 2] 3 = some (rotate [1, 2] 3) :=
  ⟨by decide, rotate_terminates_with_linear_fuel [1, 2] 3 (by decide)⟩

/-- C10: for a sequence of length n >= 1 and a negative k that is an exact
multiple of n, rotate returns immediately leaving the sequence unchanged,
because the JS remainder is 0 and the early-return guard fires. -/
theorem rotate_negative_multiple_noop (nums : List Int) (k : Int)
    (hlen : 1 ≤ nums.length) (hneg : k < 0) (hdvd : (nums.length : Int) ∣ k) :
    rotate nums k = nums := by
  simp only [rotate]
  rw [Int.tmod_eq_zero_of_dvd hdvd]
  rw [if_pos (Or.inl rfl)]

theorem rotate_negative_multiple_noop_witness :
    (1 ≤ ([1, 2, 3] : List Int).length ∧ (-3 : Int) < 0
      ∧ ((([1, 2, 3] : List Int).length : Int) ∣ (-3 : Int)))
    ∧ rotate [1, 2, 3] (-3) = [1, 2, 3] :=
  ⟨⟨by decide, by decide, ⟨-1, by norm_num⟩⟩,
   rotate_negative_multiple_noop [1, 2, 3] (-3) (by decide) (by decide) ⟨-1, by norm_num⟩⟩

end RotateArray
